import Mathlib

/-!
# Shallow embedding of the data-driven API test framework

This file embeds the variable-binding and verification engine of the
repository (the live generation: `lib/utils/helpers.py`,
`lib/handlers/test_case_handler.py`, `lib/core/test_runner.py`) and proves
the specification claims about it.

Python data values (decoded JSON: `None`, `bool`, `int`, `str`, `list`,
`dict`) are embedded as the inductive type `Value`; Python dicts become
association lists in insertion order (keys unique); Python exceptions
become explicit error results; the HTTP transport collaborator is an
arbitrary function parameter.  Floats and non-ASCII numeric strings are
outside the granularity of the embedding.
-/

/-- Decoded JSON / Python data values, as handled by the framework. -/
inductive Value where
  | null : Value
  | bool (b : Bool) : Value
  | int (n : Int) : Value
  | str (s : String) : Value
  | arr (elems : List Value) : Value
  | obj (fields : List (String × Value)) : Value

/-- Python `value is None` (the check in `extract_variables`, line 93). -/
def Value.isNull : Value → Bool
  | .null => true
  | _ => false

/-- Python `isinstance(value, dict)`. -/
def Value.isObj : Value → Bool
  | .obj _ => true
  | _ => false

/-- Python `isinstance(value, list)`. -/
def Value.isArr : Value → Bool
  | .arr _ => true
  | _ => false

/-- Python `==` between a value and a scalar (the only shape of `==` that
`deep_compare` ever evaluates: its else-branch runs when `expected` is
neither a dict nor a list).  Python's numeric cross-type equality between
`bool` and `int` (`True == 1`) is modelled; floats are not in the model. -/
def pyEqScalar : Value → Value → Bool
  | .null, .null => true
  | .bool b, .bool c => b == c
  | .int m, .int n => m == n
  | .bool b, .int n => (if b then (1 : Int) else 0) == n
  | .int n, .bool b => n == (if b then (1 : Int) else 0)
  | .str s, .str t => s == t
  | _, _ => false

/-- Python `part.isdigit()` for ASCII strings (`helpers.deep_get`, line 23):
non-empty and all decimal digits. -/
def pyIsDigit (part : List Char) : Bool :=
  !part.isEmpty && part.all Char.isDigit

/-- Python `int(part)` for an ASCII-digit string. -/
def digitsToNat (part : List Char) : Nat :=
  part.foldl (fun n c => 10 * n + (c.toNat - '0'.toNat)) 0

/-- Python `path.split('.')` (note: `''.split('.') == ['']`). -/
def splitDots : List Char → List (List Char)
  | [] => [[]]
  | c :: cs =>
    if c = '.' then [] :: splitDots cs
    else
      match splitDots cs with
      | [] => [[c]]
      | g :: gs => (c :: g) :: gs

/-- The segment loop of `helpers.deep_get` (lines 18-29).  At a dict the
code does `obj = obj.get(part, default)` and *continues* (it does not stop
on a missing key); at a list it indexes when the segment is all digits
(`IndexError` is caught and yields `default`); any other shape returns
`default`.  The function is total: absence is a value, never an error. -/
def deep_get_go (default : Value) : Value → List (List Char) → Value
  | v, [] => v
  | v, part :: rest =>
    match v with
    | .obj fields => deep_get_go default ((List.lookup (String.mk part) fields).getD default) rest
    | .arr elems =>
      if pyIsDigit part then
        match elems.get? (digitsToNat part) with
        | some x => deep_get_go default x rest
        | none => default
      else default
    | _ => default

/-- `helpers.deep_get(obj, path, default=None)`: dotted-path read over
nested dict/list structures. -/
def deep_get (obj : Value) (path : String) (default : Value := .null) : Value :=
  deep_get_go default obj (splitDots path.data)

mutual

/-- `helpers.deep_compare(actual, expected)` (lines 31-55): partial
structural match.  A dict `expected` requires every one of its keys to be
present in `actual` with a recursively matching value (extra keys of
`actual` are ignored); a list `expected` requires a list `actual` of equal
length matching pairwise; otherwise plain `==`.  Total by construction,
mirroring that the Python code raises no exception on `Value`-shaped data. -/
def deep_compare : Value → Value → Bool
  | a, .obj fs =>
    match a with
    | .obj afs => deep_compare_fields afs fs
    | _ => false
  | a, .arr es =>
    match a with
    | .arr xs => xs.length == es.length && deep_compare_list xs es
    | _ => false
  | a, e => pyEqScalar a e

/-- `all(key in actual and deep_compare(actual[key], value) for key, value
in expected.items())` (lines 44-47). -/
def deep_compare_fields (afs : List (String × Value)) : List (String × Value) → Bool
  | [] => true
  | (k, v) :: rest =>
    (match List.lookup k afs with
     | some av => deep_compare av v
     | none => false) && deep_compare_fields afs rest

/-- `all(deep_compare(a, e) for a, e in zip(actual, expected))`
(lines 51-53); `zip` truncates, the caller has already checked lengths. -/
def deep_compare_list : List Value → List Value → Bool
  | x :: xs, e :: es => deep_compare x e && deep_compare_list xs es
  | _, _ => true

end

/-- `BaseTestCaseHandler.verify_response` (handlers, lines 129-143):
delegates to `deep_compare`; its `try/except → False` shield has nothing
to catch in the total model. -/
def verify_response (actual expected : Value) : Bool :=
  deep_compare actual expected

/-- The variable store `self.variables` of `BaseTestCaseHandler`: a Python
dict in insertion order. -/
abbrev VarStore := List (String × Value)

/-- Python dict assignment `d[k] = v`: overwrite in place if the key
exists, else append (insertion order preserved). -/
def dictSet (d : List (String × Value)) (k : String) (v : Value) : List (String × Value) :=
  if d.any (fun p => p.1 == k) then
    d.map (fun p => if p.1 == k then (k, v) else p)
  else d ++ [(k, v)]

/-- The character list of `f"${{{name}}}"` (handlers, line 117): the
literal text `${name}`. -/
def placeholderL (name : String) : List Char :=
  '$' :: '{' :: name.data ++ ['}']

/-- Python `placeholder in result`: substring membership. -/
def isSubstring (q : List Char) : List Char → Bool
  | [] => q.isEmpty
  | c :: cs => q.isPrefixOf (c :: cs) || isSubstring q cs

/-- Python `result.replace(old, new)` on character lists: replace every
occurrence of `old` left to right, non-overlapping.  The `old = []` guard
is never exercised by the framework (placeholders are non-empty). -/
def replaceAll (q r : List Char) : List Char → List Char
  | [] => []
  | c :: cs =>
    if q.isPrefixOf (c :: cs) && !q.isEmpty then
      r ++ replaceAll q r ((c :: cs).drop q.length)
    else
      c :: replaceAll q r cs
termination_by l => l.length
decreasing_by
  · rename_i h
    have hq : 0 < q.length := by
      rcases q with _ | ⟨a, as⟩
      · simp at h
      · simp
    simp only [List.length_drop, List.length_cons]
    omega
  · simp

mutual

/-- Python `str(value)` (handlers, line 119).  Scalars are stringified by
their Python text; containers fall through to `repr` with single-quoted
strings (Python's quote-escaping corner cases are outside the model). -/
def pyStr : Value → String
  | .str s => s
  | v => pyReprV v

/-- Python `repr(value)` for decoded-JSON values. -/
def pyReprV : Value → String
  | .null => "None"
  | .bool true => "True"
  | .bool false => "False"
  | .int n => toString n
  | .str s => "'" ++ s ++ "'"
  | .arr xs => "[" ++ pyReprElems xs ++ "]"
  | .obj fs => "\x7b" ++ pyReprFields fs ++ "\x7d"

def pyReprElems : List Value → String
  | [] => ""
  | [x] => pyReprV x
  | x :: y :: rest => pyReprV x ++ ", " ++ pyReprElems (y :: rest)

def pyReprFields : List (String × Value) → String
  | [] => ""
  | [(k, v)] => "'" ++ k ++ "': " ++ pyReprV v
  | (k, v) :: kv :: rest => "'" ++ k ++ "': " ++ pyReprV v ++ ", " ++ pyReprFields (kv :: rest)

end

/-- The string branch of `BaseTestCaseHandler.replace_variables` (handlers,
lines 112-122): for each stored variable in insertion order, if its
`${name}` placeholder occurs in the current result, textually replace it
with `str(value)`; unknown placeholders are left verbatim. -/
def replaceStr (vars : VarStore) (s : String) : String :=
  vars.foldl
    (fun acc kv =>
      if isSubstring (placeholderL kv.1) acc.data then
        String.mk (replaceAll (placeholderL kv.1) (pyStr kv.2).data acc.data)
      else acc)
    s

mutual

/-- `BaseTestCaseHandler.replace_variables(data)` (handlers, lines
100-127): strings get placeholder substitution, dicts and lists are
rebuilt with substituted members, all other values pass through. -/
def replace_variables (vars : VarStore) : Value → Value
  | .str s => .str (replaceStr vars s)
  | .obj fs => .obj (replace_variables_fields vars fs)
  | .arr xs => .arr (replace_variables_list vars xs)
  | v => v

/-- `{k: self.replace_variables(v) for k, v in data.items()}` (line 124). -/
def replace_variables_fields (vars : VarStore) : List (String × Value) → List (String × Value)
  | [] => []
  | (k, v) :: rest => (k, replace_variables vars v) :: replace_variables_fields vars rest

/-- `[self.replace_variables(item) for item in data]` (line 126). -/
def replace_variables_list (vars : VarStore) : List Value → List Value
  | [] => []
  | x :: xs => replace_variables vars x :: replace_variables_list vars xs

end

/-- The `ValidationError` raised by `extract_variables` (handlers, lines
94-98): the message `提取变量 {var_name} 失败: 无法从路径 {path} 提取值`
names both the variable and the path; the model keeps them as fields.
This is the spec's `ExtractionError`. -/
structure ExtractErr where
  varName : String
  path : String
deriving DecidableEq

/-- `BaseTestCaseHandler.extract_variables(response, extract_rules)`
(handlers, lines 80-98).  Rules are processed in order; each value is read
with `deep_get` (default `None`); a `None` result raises, aborting the
loop — variables stored by earlier rules remain stored (the Python code
mutates `self.variables` as it goes), and nothing is stored for the
failing variable.  Returns the final store plus the error, if any. -/
def extract_variables (vars : VarStore) (response : Value) :
    List (String × String) → VarStore × Option ExtractErr
  | [] => (vars, none)
  | (varName, path) :: rest =>
    let value := deep_get response path
    if value.isNull then (vars, some ⟨varName, path⟩)
    else extract_variables (dictSet vars varName value) response rest

/-- A loaded test case record (§3 TestCase; the dict produced by the case
loaders).  Optional fields model `case.get(...)`: `headers`/`params`/
`expected` default to `{}` at use sites, `data` to `None` (so it is kept
as a `Value`, with `.null` for absent), `extract` to `{}` (its Python
truthiness test makes `none` and an empty dict equivalent, so it is kept
as a plain rule list). -/
structure TCase where
  case_id : Value
  scenario : String
  step : Int
  description : String
  method : String
  api : String
  headers : Option Value
  data : Value
  params : Option Value
  expected : Option Value
  extract : List (String × String)

/-- The transport collaborator's successful result (`APIClient.request`,
core, lines 128-131): `{'status_code': ..., 'data': ...}`. -/
structure Resp where
  status_code : Int
  data : Value

/-- The transport collaborator: given method, endpoint and the substituted
headers/body/params, either a response or an `APIError` message (raised
after the client's internal retries).  Kept abstract: the runner treats it
as an external function. -/
abbrev Transport := String → String → Value → Value → Value → Except String Resp

/-- One entry of `self.results` (`TestRunner.run_test_case`, core, lines
86-94 on success / 99-125 on failure): success carries
`response`/`expected`/`actual` and `error = none`; a caught exception
carries only a populated `error`. -/
structure TResult where
  case_id : Value
  scenario : String
  description : String
  is_passed : Bool
  response : Option Resp
  expected : Option Value
  actual : Option Value
  error : Option String

/-- The error string the runner records for an extraction failure
(`验证错误: {str(e)}` wrapping the two `ValidationError` messages of
`extract_variables`). -/
def extractErrMsg (e : ExtractErr) : String :=
  "验证错误: 提取变量 " ++ e.varName ++ " 失败: 无法从路径 " ++ e.path ++ " 提取值"

/-- `TestRunner.run_test_case` (core, lines 44-125).  Substitute variables
into headers, data and params; dispatch; if the case declares extraction
rules (a truthy `extract`), run extraction; verify the body against
`expected` (default `{}`).  An `APIError` from dispatch or a
`ValidationError` from extraction is caught at the case boundary and
becomes a failed result with a populated `error`; the variable store keeps
whatever extraction stored before failing.  Returns the result and the
updated store. -/
def run_test_case (transport : Transport) (vars : VarStore) (c : TCase) :
    TResult × VarStore :=
  let headers := replace_variables vars (c.headers.getD (.obj []))
  let data := replace_variables vars c.data
  let params := replace_variables vars (c.params.getD (.obj []))
  match transport c.method c.api headers data params with
  | .error msg =>
    ({ case_id := c.case_id, scenario := c.scenario, description := c.description,
       is_passed := false, response := none, expected := none, actual := none,
       error := some ("API错误: " ++ msg) }, vars)
  | .ok resp =>
    let ext := if c.extract.isEmpty then (vars, none)
               else extract_variables vars resp.data c.extract
    match ext with
    | (vars2, some e) =>
      ({ case_id := c.case_id, scenario := c.scenario, description := c.description,
         is_passed := false, response := none, expected := none, actual := none,
         error := some (extractErrMsg e) }, vars2)
    | (vars2, none) =>
      let expected := c.expected.getD (.obj [])
      let actual := resp.data
      let is_passed := verify_response actual expected
      ({ case_id := c.case_id, scenario := c.scenario, description := c.description,
         is_passed := is_passed, response := some resp, expected := some expected,
         actual := some actual, error := none }, vars2)

/-- The case loop of `TestRunner.run_all_tests` (core, lines 146-148):
strictly sequential; every result is appended and the loop continues
unconditionally after a failed case. -/
def run_all_cases (transport : Transport) : VarStore → List TCase → List TResult
  | _, [] => []
  | vars, c :: rest =>
    (run_test_case transport vars c).1
      :: run_all_cases transport (run_test_case transport vars c).2 rest

/-- Python string `<`: lexicographic comparison by code point. -/
def pyStrLt : List Char → List Char → Bool
  | [], [] => false
  | [], _ :: _ => true
  | _ :: _, [] => false
  | a :: as, b :: bs =>
    if a < b then true
    else if b < a then false
    else pyStrLt as bs

/-- The YAML sort key `(x['scenario'], x['step'])` compared as Python
compares tuples: lexicographically, strings by code point, steps
numerically. -/
def caseLE (a b : TCase) : Prop :=
  pyStrLt a.scenario.data b.scenario.data = true
    ∨ (a.scenario = b.scenario ∧ a.step ≤ b.step)

instance : DecidableRel caseLE := fun a b =>
  @instDecidableOr _ _ (instDecidableEqBool _ _)
    (@instDecidableAnd _ _ (String.decEq _ _) (Int.decLe _ _))

/-- `test_cases.sort(key=lambda x: (x['scenario'], x['step']))`
(`YAMLTestCaseHandler.load_test_cases`, handlers, line 217), the stable
ascending sort applied after per-case validation (the validation that
precedes it raises on malformed cases and never reorders). -/
def sortCases (cases : List TCase) : List TCase :=
  List.insertionSort caseLE cases

/-- The character class of `helpers.validate_variable_name`
(`[a-zA-Z0-9_]`): the characters a stored variable name may contain. -/
def isIdentChar (c : Char) : Bool :=
  c.isAlpha || c.isDigit || c == '_'

/-- A well-formed variable name: non-empty, identifier characters only
(extraction keys are validated against `^[a-zA-Z_][a-zA-Z0-9_]*$` by
`validate_test_case`, handlers, lines 63-65; only the character-class part
is needed by the substitution proofs). -/
def identName (n : String) : Prop :=
  n.data ≠ [] ∧ ∀ c ∈ n.data, isIdentChar c = true

/-- A value containing no `${...}` placeholder anywhere in its strings. -/
inductive PlaceholderFree : Value → Prop where
  | null : PlaceholderFree .null
  | bool (b : Bool) : PlaceholderFree (.bool b)
  | int (n : Int) : PlaceholderFree (.int n)
  | str (s : String) (h : ∀ n : String, ¬ placeholderL n <:+: s.data) :
      PlaceholderFree (.str s)
  | arr (xs : List Value) (h : ∀ x ∈ xs, PlaceholderFree x) :
      PlaceholderFree (.arr xs)
  | obj (fs : List (String × Value)) (h : ∀ kv ∈ fs, PlaceholderFree kv.2) :
      PlaceholderFree (.obj fs)

/-! ## Order lemmas for the sort key -/

theorem pyStrLt_trichotomy (xs ys : List Char) :
    pyStrLt xs ys = true ∨ pyStrLt ys xs = true ∨ xs = ys := by
  induction xs generalizing ys with
  | nil => cases ys <;> simp [pyStrLt]
  | cons a as ih =>
    cases ys with
    | nil => simp [pyStrLt]
    | cons b bs =>
      rcases lt_trichotomy a b with hab | hab | hab
      · exact Or.inl (by simp [pyStrLt, hab])
      · subst hab
        rcases ih bs with h | h | h
        · exact Or.inl (by simp [pyStrLt, h])
        · exact Or.inr (Or.inl (by simp [pyStrLt, h]))
        · exact Or.inr (Or.inr (by rw [h]))
      · exact Or.inr (Or.inl (by simp [pyStrLt, hab]))

theorem pyStrLt_trans (xs ys zs : List Char) (h1 : pyStrLt xs ys = true)
    (h2 : pyStrLt ys zs = true) : pyStrLt xs zs = true := by
  induction xs generalizing ys zs with
  | nil =>
    cases ys with
    | nil => simp [pyStrLt] at h1
    | cons b bs =>
      cases zs with
      | nil => simp [pyStrLt] at h2
      | cons c cs => rfl
  | cons a as ih =>
    cases ys with
    | nil => simp [pyStrLt] at h1
    | cons b bs =>
      cases zs with
      | nil => simp [pyStrLt] at h2
      | cons c cs =>
        show (if a < c then true else if c < a then false else pyStrLt as cs) = true
        have h1' : (if a < b then true else if b < a then false else pyStrLt as bs) = true := h1
        have h2' : (if b < c then true else if c < b then false else pyStrLt bs cs) = true := h2
        by_cases hab : a < b
        · by_cases hbc : b < c
          · rw [if_pos (hab.trans hbc)]
          · by_cases hcb : c < b
            · rw [if_neg hbc, if_pos hcb] at h2'
              exact absurd h2' (by simp)
            · have hbceq : b = c := le_antisymm (not_lt.mp hcb) (not_lt.mp hbc)
              rw [if_pos (lt_of_lt_of_eq hab hbceq)]
        · by_cases hba : b < a
          · rw [if_neg hab, if_pos hba] at h1'
            exact absurd h1' (by simp)
          · have habeq : a = b := le_antisymm (not_lt.mp hba) (not_lt.mp hab)
            rw [if_neg hab, if_neg hba] at h1'
            by_cases hbc : b < c
            · rw [if_pos (lt_of_eq_of_lt habeq hbc)]
            · by_cases hcb : c < b
              · rw [if_neg hbc, if_pos hcb] at h2'
                exact absurd h2' (by simp)
              · have hbceq : b = c := le_antisymm (not_lt.mp hcb) (not_lt.mp hbc)
                rw [if_neg hbc, if_neg hcb] at h2'
                have hac : ¬ a < c := by
                  rw [habeq, hbceq]
                  exact lt_irrefl c
                have hca : ¬ c < a := by
                  rw [habeq, hbceq]
                  exact lt_irrefl c
                rw [if_neg hac, if_neg hca]
                exact ih bs cs h1' h2'

/-! ## Shared lemmas about the verifier -/

theorem deep_compare_fields_iff (afs fs : List (String × Value)) :
    deep_compare_fields afs fs = true ↔
      ∀ kv ∈ fs, ∃ av, List.lookup kv.1 afs = some av ∧ deep_compare av kv.2 = true := by
  induction fs with
  | nil => simp [deep_compare_fields]
  | cons kv rest ih =>
    obtain ⟨k, v⟩ := kv
    cases hl : List.lookup k afs with
    | none => simp [deep_compare_fields, hl, ih]
    | some av => simp [deep_compare_fields, hl, ih]

theorem deep_compare_arr_aux (xs es : List Value) :
    (xs.length = es.length ∧ deep_compare_list xs es = true) ↔
      List.Forall₂ (fun x e => deep_compare x e = true) xs es := by
  induction xs generalizing es with
  | nil => cases es <;> simp [deep_compare_list]
  | cons x xs ih =>
    cases es with
    | nil => simp [deep_compare_list]
    | cons e es => simp [deep_compare_list, List.forall₂_cons, ← ih]; tauto

theorem deep_compare_fields_extra_key (afs fs : List (String × Value)) (k : String) (v : Value)
    (hk : k ∉ fs.map Prod.fst) :
    deep_compare_fields ((k, v) :: afs) fs = deep_compare_fields afs fs := by
  induction fs with
  | nil => rfl
  | cons kv rest ih =>
    obtain ⟨k0, v0⟩ := kv
    simp only [List.map_cons, List.mem_cons, not_or] at hk
    have hne : (k0 == k) = false := by
      simp only [beq_eq_false_iff_ne, ne_eq]
      exact fun h => hk.1 h.symm
    simp only [deep_compare_fields, List.lookup_cons, hne, ih hk.2]

/-! ## Claims about the response verifier -/

/-- C2: for a mapping `expected`, `verify(actual, expected)` is true iff
`actual` is a mapping in which every key of `expected` is present with a
recursively verifying value; keys of `actual` that `expected` does not
mention never affect the result; `verify({"a":1,"b":2},{"a":1})` is true
and `verify({"a":1},{"a":1,"b":2})` is false. -/
theorem verify_obj_subset_match :
    (∀ (a : Value) (fs : List (String × Value)),
        deep_compare a (.obj fs) = true ↔
          ∃ afs, a = .obj afs ∧
            ∀ kv ∈ fs, ∃ av, List.lookup kv.1 afs = some av ∧ deep_compare av kv.2 = true)
    ∧ (∀ (afs fs : List (String × Value)) (k : String) (v : Value),
        k ∉ fs.map Prod.fst →
          deep_compare (.obj ((k, v) :: afs)) (.obj fs) = deep_compare (.obj afs) (.obj fs))
    ∧ verify_response (.obj [("a", .int 1), ("b", .int 2)]) (.obj [("a", .int 1)]) = true
    ∧ verify_response (.obj [("a", .int 1)]) (.obj [("a", .int 1), ("b", .int 2)]) = false := by
  refine ⟨?_, ?_, rfl, rfl⟩
  · intro a fs
    cases a <;> simp [deep_compare, deep_compare_fields_iff]
  · intro afs fs k v hk
    simp [deep_compare, deep_compare_fields_extra_key afs fs k v hk]

theorem verify_obj_subset_match_witness :
    ("b" : String) ∉ ([("a", Value.int 1)].map Prod.fst)
    ∧ deep_compare (.obj [("b", .int 7), ("a", .int 1)]) (.obj [("a", .int 1)])
        = deep_compare (.obj [("a", .int 1)]) (.obj [("a", .int 1)]) := by
  refine ⟨by decide, verify_obj_subset_match.2.1 [("a", .int 1)] [("a", .int 1)] "b" (.int 7) (by decide)⟩

/-- C3 as written is false on the code: the spec example
`verify([{"a":1}], [{"a":1,"b":9}]) == true` evaluates to `false`, because
for mappings the subset direction requires every *expected* key to exist
in the actual element, and `"b"` does not. -/
theorem verify_arr_spec_example_is_false :
    verify_response (.arr [.obj [("a", .int 1)]]) (.arr [.obj [("a", .int 1), ("b", .int 9)]])
      = false := by
  rfl

/-- C3 (amended): for a sequence `expected`, `verify(actual, expected)` is
true iff `actual` is a sequence of exactly the same length verifying
pairwise at every position (positional, no reordering or subset
semantics); `verify([1,2],[1,2,3])` is false; the element-wise subset runs
the other way: `verify([{"a":1}], [{"a":1,"b":9}])` is false while
`verify([{"a":1,"b":9}], [{"a":1}])` is true.  The comparison is a total
function: no internal error can escape (`verify_response` wraps it in
`try/except → False`, which has nothing to catch in the model). -/
theorem verify_arr_positional_match :
    (∀ (a : Value) (es : List Value),
        deep_compare a (.arr es) = true ↔
          ∃ xs, a = .arr xs ∧ List.Forall₂ (fun x e => deep_compare x e = true) xs es)
    ∧ verify_response (.arr [.int 1, .int 2]) (.arr [.int 1, .int 2, .int 3]) = false
    ∧ verify_response (.arr [.obj [("a", .int 1)]]) (.arr [.obj [("a", .int 1), ("b", .int 9)]])
        = false
    ∧ verify_response (.arr [.obj [("a", .int 1), ("b", .int 9)]]) (.arr [.obj [("a", .int 1)]])
        = true := by
  refine ⟨?_, rfl, rfl, rfl⟩
  intro a es
  cases a <;> simp [deep_compare, ← deep_compare_arr_aux]

/-- C10: a case with no `expected` field is verified against `{}`, and
`verify(actual, {})` is true exactly when `actual` is a mapping: with a
successful dispatch and no extraction rules, such a case is passed iff the
response body is a mapping, and failed when the body is a sequence,
string, number or null. -/
theorem empty_expected_passes_iff_mapping :
    (∀ a : Value, deep_compare a (.obj []) = a.isObj)
    ∧ (∀ (transport : Transport) (vars : VarStore) (c : TCase) (resp : Resp),
        c.expected = none → c.extract = [] →
        (∀ m e h d p, transport m e h d p = .ok resp) →
        (run_test_case transport vars c).1.is_passed = resp.data.isObj)
    ∧ verify_response (.arr []) (.obj []) = false
    ∧ verify_response (.str "ok") (.obj []) = false
    ∧ verify_response (.int 3) (.obj []) = false
    ∧ verify_response .null (.obj []) = false := by
  have hobj : ∀ a : Value, deep_compare a (.obj []) = a.isObj := by
    intro a
    cases a <;> rfl
  refine ⟨hobj, ?_, rfl, rfl, rfl, rfl⟩
  intro transport vars c resp hexp hext htr
  simp [run_test_case, htr, hexp, hext, verify_response, hobj]

theorem empty_expected_passes_iff_mapping_witness :
    (run_test_case (fun _ _ _ _ _ => .ok ⟨200, .arr [.int 1]⟩) []
        { case_id := .int 1, scenario := "s", step := 1, description := "d",
          method := "GET", api := "/x", headers := none, data := .null,
          params := none, expected := none, extract := [] }).1.is_passed
      = (Value.arr [.int 1]).isObj := by
  exact empty_expected_passes_iff_mapping.2.1 _ [] _ ⟨200, .arr [.int 1]⟩ rfl rfl
    (fun _ _ _ _ _ => rfl)

/-! ## Claims about the path accessor -/

theorem deep_get_go_null (parts : List (List Char)) :
    deep_get_go .null .null parts = .null := by
  cases parts <;> rfl

/-- C6: `deep_get` never raises (it is a total function of the embedding;
every failure mode listed below is a returned `absent`, embodied as the
`None` default): a mapping miss at the head segment, an out-of-range index
into a sequence, a non-numeric segment against a sequence, and descent
into a scalar all yield `None`; and the three concrete spec examples hold. -/
theorem deep_get_absent_semantics :
    deep_get (.obj [("a", .obj [("b", .arr [.int 1, .int 2, .int 3])])]) "a.b.1" = .int 2
    ∧ deep_get (.obj []) "x.y" = .null
    ∧ deep_get (.obj [("a", .int 1)]) "a.b" = .null
    ∧ (∀ (fields : List (String × Value)) (part : List Char) (rest : List (List Char)),
        List.lookup (String.mk part) fields = none →
        deep_get_go .null (.obj fields) (part :: rest) = .null)
    ∧ (∀ (elems : List Value) (part : List Char) (rest : List (List Char)),
        pyIsDigit part = true → elems.length ≤ digitsToNat part →
        deep_get_go .null (.arr elems) (part :: rest) = .null)
    ∧ (∀ (elems : List Value) (part : List Char) (rest : List (List Char)),
        pyIsDigit part = false →
        deep_get_go .null (.arr elems) (part :: rest) = .null)
    ∧ (∀ (v : Value) (part : List Char) (rest : List (List Char)),
        v.isObj = false → v.isArr = false →
        deep_get_go .null v (part :: rest) = .null) := by
  refine ⟨rfl, rfl, rfl, ?_, ?_, ?_, ?_⟩
  · intro fields part rest hl
    simp [deep_get_go, hl, deep_get_go_null]
  · intro elems part rest hdig hlen
    simp [deep_get_go, hdig, List.getElem?_eq_none hlen]
  · intro elems part rest hdig
    simp [deep_get_go, hdig]
  · intro v part rest hobj harr
    cases v <;> simp_all [Value.isObj, Value.isArr] <;> rfl

theorem deep_get_absent_semantics_witness :
    List.lookup (String.mk ['z']) [("a", Value.int 1)] = none
    ∧ deep_get_go .null (.obj [("a", Value.int 1)]) (['z'] :: []) = .null
    ∧ pyIsDigit ['5'] = true ∧ ([Value.int 7].length ≤ digitsToNat ['5'])
    ∧ deep_get_go .null (.arr [Value.int 7]) (['5'] :: []) = .null
    ∧ pyIsDigit ['x'] = false
    ∧ deep_get_go .null (.arr [Value.int 7]) (['x'] :: []) = .null
    ∧ deep_get_go .null (.int 3) (['a'] :: []) = .null := by
  refine ⟨rfl, ?_, by decide, by decide, ?_, by decide, ?_, ?_⟩
  · exact deep_get_absent_semantics.2.2.2.1 [("a", Value.int 1)] ['z'] [] rfl
  · exact deep_get_absent_semantics.2.2.2.2.1 [Value.int 7] ['5'] [] (by decide) (by decide)
  · exact deep_get_absent_semantics.2.2.2.2.2.1 [Value.int 7] ['x'] [] (by decide)
  · exact deep_get_absent_semantics.2.2.2.2.2.2 (.int 3) ['a'] [] rfl rfl

/-! ## Claims about variable extraction -/

theorem Value.isNull_iff (v : Value) : v.isNull = true ↔ v = .null := by
  cases v <;> simp [Value.isNull]

theorem lookup_map_overwrite_ne (d : List (String × Value)) (k k0 : String) (v : Value)
    (h : k ≠ k0) :
    List.lookup k (d.map (fun p => if p.1 == k0 then (k0, v) else p)) = List.lookup k d := by
  have hbk : (k == k0) = false := beq_eq_false_iff_ne.mpr h
  induction d with
  | nil => rfl
  | cons p d' ih =>
    obtain ⟨p1, p2⟩ := p
    by_cases hp : (p1 == k0) = true
    · have hpk : (k == p1) = false := by
        rw [eq_of_beq hp]
        exact hbk
      simp only [List.map_cons, hp, if_true, List.lookup_cons, hbk, hpk, ih]
    · have hp' : (p1 == k0) = false := by simpa using hp
      cases hk : k == p1 <;>
        simp only [List.map_cons, hp', Bool.false_eq_true, if_false, List.lookup_cons, hk, ih]

theorem lookup_append_single_ne (d : List (String × Value)) (k k0 : String) (v : Value)
    (h : k ≠ k0) : List.lookup k (d ++ [(k0, v)]) = List.lookup k d := by
  have hbk : (k == k0) = false := beq_eq_false_iff_ne.mpr h
  induction d with
  | nil => simp [List.lookup_cons, hbk, List.lookup]
  | cons p d' ih =>
    obtain ⟨p1, p2⟩ := p
    cases hk : k == p1 <;> simp only [List.cons_append, List.lookup_cons, hk, ih]

theorem lookup_dictSet_ne (d : List (String × Value)) (k k0 : String) (v : Value)
    (h : k ≠ k0) : List.lookup k (dictSet d k0 v) = List.lookup k d := by
  unfold dictSet
  split
  · exact lookup_map_overwrite_ne d k k0 v h
  · exact lookup_append_single_ne d k k0 v h

/-- C1: when a declared dotted path resolves to nothing against the
response body, extraction raises the hard extraction error naming exactly
that variable and path (a `ValidationError` in the code, the spec's
`ExtractionError`), the loop stops there, and no value is stored for that
variable — its binding in the store is untouched (earlier rules of the
same call remain stored, as in the Python, which mutates the store rule by
rule).  In particular `extract({"data":{}}, {"id":"data.id"})` fails. -/
theorem extract_hard_failure_on_absent_path
    (vars : VarStore) (response : Value) (pre rest : List (String × String))
    (name path : String)
    (h1 : ∀ np ∈ pre, deep_get response np.2 ≠ .null)
    (h2 : deep_get response path = .null)
    (h3 : name ∉ pre.map Prod.fst) :
    (∃ vars', extract_variables vars response (pre ++ (name, path) :: rest)
        = (vars', some ⟨name, path⟩)
      ∧ List.lookup name vars' = List.lookup name vars)
    ∧ extract_variables [] (.obj [("data", .obj [])]) [("id", "data.id")]
        = ([], some ⟨"id", "data.id"⟩) := by
  refine ⟨?_, rfl⟩
  induction pre generalizing vars with
  | nil =>
    refine ⟨vars, ?_, rfl⟩
    simp only [List.nil_append, extract_variables]
    rw [if_pos ((Value.isNull_iff _).mpr h2)]
  | cons np pre' ih =>
    obtain ⟨n0, p0⟩ := np
    have hne : (deep_get response p0).isNull = false := by
      rw [← Bool.not_eq_true, Value.isNull_iff]
      exact h1 (n0, p0) (List.mem_cons_self _ _)
    simp only [List.map_cons, List.mem_cons, not_or] at h3
    obtain ⟨vars', heq, hlook⟩ :=
      ih (dictSet vars n0 (deep_get response p0))
        (fun np hm => h1 np (List.mem_cons_of_mem _ hm)) h3.2
    refine ⟨vars', ?_, ?_⟩
    · simp only [List.cons_append, extract_variables]
      rw [if_neg (by simp [hne])]
      exact heq
    · rw [hlook]
      exact lookup_dictSet_ne vars name n0 _ h3.1

theorem extract_hard_failure_on_absent_path_witness :
    (∀ np ∈ ([("tok", "data")] : List (String × String)),
        deep_get (Value.obj [("data", .obj []), ("a", .null)]) np.2 ≠ .null)
    ∧ deep_get (Value.obj [("data", .obj []), ("a", .null)]) "a" = .null
    ∧ ("id" : String) ∉ ([("tok", "data")].map Prod.fst)
    ∧ ∃ vars', extract_variables [] (Value.obj [("data", .obj []), ("a", .null)])
          ([("tok", "data")] ++ ("id", "a") :: [])
        = (vars', some ⟨"id", "a"⟩)
      ∧ List.lookup "id" vars' = List.lookup "id" ([] : VarStore) := by
  have h1 : ∀ np ∈ ([("tok", "data")] : List (String × String)),
      deep_get (Value.obj [("data", .obj []), ("a", .null)]) np.2 ≠ .null := by
    intro np hm
    simp only [List.mem_singleton] at hm
    subst hm
    intro h
    have h' : Value.obj [] = Value.null := h
    exact Value.noConfusion h' 
  refine ⟨h1, rfl, by decide, ?_⟩
  exact (extract_hard_failure_on_absent_path [] (Value.obj [("data", .obj []), ("a", .null)])
    [("tok", "data")] [] "id" "a" h1 rfl (by decide)).1

/-- C9: extraction cannot tell a legitimately-null field from a missing
path: `deep_get` returns the default `None` for both, and
`extract_variables` raises whenever the resolved value is `None`
(`if value is None`, handlers line 93), storing nothing — so
`extract({"a": null}, {"x": "a"})` and `extract({}, {"x": "a"})` fail
identically, even though key `"a"` exists in the first body. -/
theorem extract_null_value_treated_as_absent
    (vars : VarStore) (response : Value) (name path : String)
    (rest : List (String × String))
    (h : deep_get response path = .null) :
    extract_variables vars response ((name, path) :: rest) = (vars, some ⟨name, path⟩)
    ∧ List.lookup "a" [("a", Value.null)] = some .null
    ∧ deep_get (.obj [("a", .null)]) "a" = .null
    ∧ extract_variables [] (.obj [("a", .null)]) [("x", "a")] = ([], some ⟨"x", "a"⟩)
    ∧ extract_variables [] (.obj []) [("x", "a")] = ([], some ⟨"x", "a"⟩) := by
  refine ⟨?_, rfl, rfl, rfl, rfl⟩
  simp only [extract_variables]
  rw [if_pos ((Value.isNull_iff _).mpr h)]

theorem extract_null_value_treated_as_absent_witness :
    deep_get (.obj [("a", .null)]) "a" = .null
    ∧ extract_variables [] (.obj [("a", .null)]) (("x", "a") :: [])
        = ([], some ⟨"x", "a"⟩) := by
  exact ⟨rfl, (extract_null_value_treated_as_absent [] (.obj [("a", .null)]) "x" "a" [] rfl).1⟩

/-! ## Claims about the case runner -/

theorem run_all_cases_map_case_id (transport : Transport) (vars : VarStore)
    (cases : List TCase) :
    (run_all_cases transport vars cases).map TResult.case_id = cases.map TCase.case_id := by
  induction cases generalizing vars with
  | nil => rfl
  | cons c rest ih =>
    have hid : (run_test_case transport vars c).1.case_id = c.case_id := by
      simp only [run_test_case]
      split
      · rfl
      · split
        · rfl
        · rfl
    simp only [run_all_cases, List.map_cons, hid, ih]

/-- C7: loaded cases are sorted ascending by the `(scenario, step)` key
(`sortCases` is the sort at YAML load, handlers line 217): the sorted list
is a permutation of the loaded cases, it is sorted w.r.t. the key order,
the runner then executes it front to back (one result per case, in list
order), and the spec's concrete instance
`(S1,2),(S1,1),(S2,1) ↦ (S1,1),(S1,2),(S2,1)` holds. -/
theorem cases_execute_in_scenario_step_order :
    (∀ cases : List TCase, List.Perm (sortCases cases) cases)
    ∧ (∀ cases : List TCase, List.Sorted caseLE (sortCases cases))
    ∧ (∀ (transport : Transport) (vars : VarStore) (cases : List TCase),
        (run_all_cases transport vars (sortCases cases)).map TResult.case_id
          = (sortCases cases).map TCase.case_id)
    ∧ (sortCases
        [⟨.int 1, "S1", 2, "", "GET", "/", none, .null, none, none, []⟩,
         ⟨.int 2, "S1", 1, "", "GET", "/", none, .null, none, none, []⟩,
         ⟨.int 3, "S2", 1, "", "GET", "/", none, .null, none, none, []⟩]).map
        (fun c => (c.scenario, c.step)) = [("S1", 1), ("S1", 2), ("S2", 1)] := by
  refine ⟨?_, ?_, ?_, ?_⟩
  · intro cases
    exact List.perm_insertionSort caseLE cases
  · intro cases
    have htot : IsTotal TCase caseLE := by
      constructor
      intro a b
      rcases pyStrLt_trichotomy a.scenario.data b.scenario.data with h | h | h
      · exact Or.inl (Or.inl h)
      · exact Or.inr (Or.inl h)
      · have hs : a.scenario = b.scenario := String.ext h
        rcases le_total a.step b.step with hst | hst
        · exact Or.inl (Or.inr ⟨hs, hst⟩)
        · exact Or.inr (Or.inr ⟨hs.symm, hst⟩)
    have htrans : IsTrans TCase caseLE := by
      constructor
      intro a b c hab hbc
      rcases hab with h1 | ⟨e1, s1⟩
      · rcases hbc with h2 | ⟨e2, s2⟩
        · exact Or.inl (pyStrLt_trans _ _ _ h1 h2)
        · exact Or.inl (by rw [← e2]; exact h1)
      · rcases hbc with h2 | ⟨e2, s2⟩
        · exact Or.inl (by rw [e1]; exact h2)
        · exact Or.inr ⟨e1.trans e2, s1.trans s2⟩
    exact @List.sorted_insertionSort _ caseLE _ htot htrans cases
  · intro transport vars cases
    exact run_all_cases_map_case_id transport vars (sortCases cases)
  · decide

/-- C8: errors inside one case are caught at the case boundary: the run
over `n` cases always yields exactly `n` results, one per case in
execution order; a dispatch failure (`APIError`) and an extraction failure
(`ValidationError`) each produce a failed result with a populated `error`
field, and the loop then continues with the remaining cases. -/
theorem run_continues_after_case_failure :
    (∀ (transport : Transport) (vars : VarStore) (cases : List TCase),
        (run_all_cases transport vars cases).map TResult.case_id = cases.map TCase.case_id)
    ∧ (∀ (transport : Transport) (vars : VarStore) (cases : List TCase),
        (run_all_cases transport vars cases).length = cases.length)
    ∧ (∀ (transport : Transport) (vars : VarStore) (c : TCase) (msg : String),
        transport c.method c.api (replace_variables vars (c.headers.getD (.obj [])))
            (replace_variables vars c.data)
            (replace_variables vars (c.params.getD (.obj []))) = .error msg →
        (run_test_case transport vars c).1.is_passed = false
          ∧ ((run_test_case transport vars c).1.error).isSome = true)
    ∧ (∀ (transport : Transport) (vars : VarStore) (c : TCase) (resp : Resp)
          (vars2 : VarStore) (e : ExtractErr),
        (∀ m ep h d p, transport m ep h d p = .ok resp) →
        c.extract.isEmpty = false →
        extract_variables vars resp.data c.extract = (vars2, some e) →
        (run_test_case transport vars c).1.is_passed = false
          ∧ ((run_test_case transport vars c).1.error).isSome = true) := by
  refine ⟨run_all_cases_map_case_id, ?_, ?_, ?_⟩
  · intro transport vars cases
    have := congrArg List.length (run_all_cases_map_case_id transport vars cases)
    simpa using this
  · intro transport vars c msg htr
    simp only [run_test_case]
    rw [htr]
    exact ⟨rfl, rfl⟩
  · intro transport vars c resp vars2 e htr hext hfail
    simp only [run_test_case]
    rw [htr c.method c.api, hext]
    simp only [Bool.false_eq_true, if_false, hfail]
    constructor <;> trivial

theorem run_continues_after_case_failure_witness :
    ((run_all_cases
        (fun _ ep _ _ _ => if ep = "/b" then .error "boom" else .ok ⟨200, .obj []⟩) []
        [⟨.int 1, "S", 1, "", "GET", "/a", none, .null, none, none, []⟩,
         ⟨.int 2, "S", 2, "", "GET", "/b", none, .null, none, none, []⟩,
         ⟨.int 3, "S", 3, "", "GET", "/c", none, .null, none, none, []⟩]).length = 3)
    ∧ ((run_test_case
        (fun _ ep _ _ _ => if ep = "/b" then .error "boom" else .ok ⟨200, .obj []⟩) []
        ⟨.int 2, "S", 2, "", "GET", "/b", none, .null, none, none, []⟩).1.is_passed = false
      ∧ (((run_test_case
        (fun _ ep _ _ _ => if ep = "/b" then .error "boom" else .ok ⟨200, .obj []⟩) []
        ⟨.int 2, "S", 2, "", "GET", "/b", none, .null, none, none, []⟩).1.error).isSome = true))
    ∧ ((run_test_case
        (fun _ _ _ _ _ => .ok ⟨200, .obj [("a", .null)]⟩) []
        ⟨.int 4, "S", 4, "", "GET", "/d", none, .null, none, none, [("x", "a")]⟩).1.is_passed
          = false
      ∧ (((run_test_case
        (fun _ _ _ _ _ => .ok ⟨200, .obj [("a", .null)]⟩) []
        ⟨.int 4, "S", 4, "", "GET", "/d", none, .null, none, none, [("x", "a")]⟩).1.error).isSome
          = true)) := by
  refine ⟨?_, ?_, ?_⟩
  · exact run_continues_after_case_failure.2.1 _ [] _
  · exact run_continues_after_case_failure.2.2.1 _ [] _ "boom" rfl
  · exact run_continues_after_case_failure.2.2.2 _ []
      ⟨.int 4, "S", 4, "", "GET", "/d", none, .null, none, none, [("x", "a")]⟩
      ⟨200, .obj [("a", .null)]⟩ [] ⟨"x", "a"⟩ (fun _ _ _ _ _ => rfl) rfl rfl

/-! ## Placeholder substitution lemmas -/

theorem isSubstring_iff_infix (q l : List Char) : isSubstring q l = true ↔ q <:+: l := by
  induction l with
  | nil => simp [isSubstring, List.isEmpty_iff, List.infix_nil]
  | cons c cs ih => simp [isSubstring, List.isPrefixOf_iff_prefix, ih, List.infix_cons_iff]

theorem identChar_ne (c : Char) (h : isIdentChar c = true) :
    c ≠ '$' ∧ c ≠ '{' ∧ c ≠ '}' := by
  refine ⟨?_, ?_, ?_⟩ <;> rintro rfl <;> revert h <;> decide

theorem dollar_not_mem_tail (n : String) (hn : identName n) :
    '$' ∉ ('{' :: n.data ++ ['}']) := by
  intro hm
  rcases List.mem_cons.mp hm with h | h
  · exact absurd h.symm (by decide)
  · rcases List.mem_append.mp h with h | h
    · exact (identChar_ne _ (hn.2 _ h)).1 rfl
    · rcases List.mem_singleton.mp h with h
      exact absurd h (by decide)

theorem brace_not_mem_ident (n : String) (hn : identName n) : '}' ∉ n.data := by
  intro hm
  exact (identChar_ne _ (hn.2 _ hm)).2.2 rfl

theorem append_brace_prefix (xs ys : List Char) (hx : '}' ∉ xs) (hy : '}' ∉ ys)
    (h : xs ++ ['}'] <+: ys ++ ['}']) : xs = ys := by
  induction xs generalizing ys with
  | nil =>
    cases ys with
    | nil => rfl
    | cons y ys' =>
      rw [List.nil_append, List.cons_append] at h
      have := (List.cons_prefix_cons.mp h).1
      exact absurd (this.symm ▸ List.mem_cons_self y ys') hy
  | cons x xs' ih =>
    cases ys with
    | nil =>
      rw [List.cons_append, List.nil_append] at h
      have := (List.cons_prefix_cons.mp h).1
      exact absurd (this ▸ List.mem_cons_self x xs') hx
    | cons y ys' =>
      rw [List.cons_append, List.cons_append] at h
      obtain ⟨hxy, h'⟩ := List.cons_prefix_cons.mp h
      have := ih ys' (fun hm => hx (List.mem_cons_of_mem _ hm))
        (fun hm => hy (List.mem_cons_of_mem _ hm)) h'
      rw [hxy, this]

theorem placeholder_prefix_le (m n : String) (hm : identName m) (hn : identName n)
    (l : List Char) (h1 : placeholderL m <+: l) (h2 : placeholderL n <+: l)
    (hlen : (placeholderL m).length ≤ (placeholderL n).length) : m = n := by
  have hp : placeholderL m <+: placeholderL n :=
    List.prefix_of_prefix_length_le h1 h2 hlen
  unfold placeholderL at hp
  obtain ⟨-, hp⟩ := List.cons_prefix_cons.mp hp
  obtain ⟨-, hp⟩ := List.cons_prefix_cons.mp hp
  have := append_brace_prefix m.data n.data (brace_not_mem_ident m hm)
    (brace_not_mem_ident n hn) hp
  exact String.ext this

theorem placeholder_prefix_unique (m n : String) (hm : identName m) (hn : identName n)
    (l : List Char) (h1 : placeholderL m <+: l) (h2 : placeholderL n <+: l) : m = n := by
  rcases le_total (placeholderL m).length (placeholderL n).length with h | h
  · exact placeholder_prefix_le m n hm hn l h1 h2 h
  · exact (placeholder_prefix_le n m hn hm l h2 h1 h).symm

theorem replaceAll_cons (q r : List Char) (c : Char) (cs : List Char) :
    replaceAll q r (c :: cs) =
      if q.isPrefixOf (c :: cs) && !q.isEmpty then
        r ++ replaceAll q r ((c :: cs).drop q.length)
      else c :: replaceAll q r cs := by
  rw [replaceAll]

theorem replaceAll_skip (q r : List Char) (k : Nat) (l : List Char)
    (hj : ∀ j < k, ¬ q <+: l.drop j) (hk : k ≤ l.length) :
    replaceAll q r l = l.take k ++ replaceAll q r (l.drop k) := by
  induction k generalizing l with
  | zero => simp
  | succ k ih =>
    cases l with
    | nil => simp at hk
    | cons c cs =>
      have h0 : ¬ q <+: (c :: cs) := by
        have := hj 0 (Nat.succ_pos k)
        simpa using this
      have hp : q.isPrefixOf (c :: cs) = false := by
        rw [← Bool.not_eq_true, List.isPrefixOf_iff_prefix]
        exact h0
      rw [replaceAll_cons, hp]
      simp only [Bool.false_and, Bool.false_eq_true, if_false]
      rw [ih cs (fun j hjk => by
          have := hj (j + 1) (Nat.succ_lt_succ hjk)
          simpa [List.drop_succ_cons] using this)
        (by simpa using Nat.le_of_succ_le_succ (by simpa using hk))]
      simp [List.take_succ_cons, List.drop_succ_cons]

theorem no_dollar_prefix_inside (m : String) (hm : identName m) (t : List Char) (j : Nat)
    (h1 : 1 ≤ j) (h2 : j < (placeholderL m).length) (q0 : List Char)
    (hq : ('$' :: q0) <+: (placeholderL m ++ t).drop j) : False := by
  have hdrop : (placeholderL m ++ t).drop j
      = ('{' :: m.data ++ ['}']).drop (j - 1) ++ t := by
    rw [List.drop_append_eq_append_drop, Nat.sub_eq_zero_of_le (le_of_lt h2), List.drop_zero]
    congr 1
    cases j with
    | zero => omega
    | succ j' =>
      simp only [placeholderL, Nat.add_sub_cancel]
      rfl
  have hlt : j - 1 < ('{' :: m.data ++ ['}']).length := by
    have hlen : (placeholderL m).length = ('{' :: m.data ++ ['}']).length + 1 := by
      simp [placeholderL]
    omega
  rw [hdrop, List.drop_eq_getElem_cons hlt, List.cons_append] at hq
  have hd := (List.cons_prefix_cons.mp hq).1
  exact dollar_not_mem_tail m hm (hd ▸ List.getElem_mem hlt)

theorem replaceAll_preserves_aux (m v : String) (hm : identName m) (hv : identName v)
    (hne : m ≠ v) (r : List Char) :
    ∀ (N : Nat) (l : List Char), l.length ≤ N → placeholderL m <:+: l →
      placeholderL m <:+: replaceAll (placeholderL v) r l := by
  intro N
  induction N with
  | zero =>
    intro l hl h
    have hnil : l = [] := by
      cases l with
      | nil => rfl
      | cons a as => simp at hl
    subst hnil
    rw [List.infix_nil] at h
    exact absurd h (by simp [placeholderL])
  | succ N ih =>
    intro l hl h
    obtain ⟨s, t, hst⟩ := h
    subst hst
    cases s with
    | nil =>
      simp only [List.nil_append] at hl ⊢
      have hH : ∀ j < (placeholderL m).length,
          ¬ placeholderL v <+: (placeholderL m ++ t).drop j := by
        intro j hjlt hq
        cases Nat.eq_zero_or_pos j with
        | inl hj0 =>
          subst hj0
          rw [List.drop_zero] at hq
          exact hne (placeholder_prefix_unique m v hm hv _ (List.prefix_append _ _) hq)
        | inr hjpos =>
          exact no_dollar_prefix_inside m hm t j hjpos hjlt _ hq
      have hlen : (placeholderL m).length ≤ (placeholderL m ++ t).length := by simp
      rw [replaceAll_skip _ r _ _ hH hlen, List.take_left, List.drop_left]
      exact ⟨[], replaceAll (placeholderL v) r t, by simp⟩
    | cons c s' =>
      simp only [List.cons_append] at hl ⊢
      by_cases hq : placeholderL v <+: c :: (s' ++ placeholderL m ++ t)
      · rcases le_or_lt (placeholderL v).length (c :: s').length with hle | hgt
        · have hp : (placeholderL v).isPrefixOf (c :: (s' ++ placeholderL m ++ t)) = true := by
            rw [List.isPrefixOf_iff_prefix]
            simpa using hq
          have hvne : (placeholderL v).isEmpty = false := by
            simp [placeholderL]
          rw [replaceAll_cons, hp, hvne]
          simp only [Bool.not_false, Bool.and_true, Bool.true_and, if_true]
          have hdrop : (c :: (s' ++ placeholderL m ++ t)).drop (placeholderL v).length
              = ((c :: s').drop (placeholderL v).length) ++ (placeholderL m ++ t) := by
            have hsh : c :: (s' ++ placeholderL m ++ t)
                = (c :: s') ++ (placeholderL m ++ t) := by
              simp
            rw [hsh, List.drop_append_eq_append_drop, Nat.sub_eq_zero_of_le hle,
              List.drop_zero]
          rw [hdrop]
          have hql : 0 < (placeholderL v).length := by simp [placeholderL]
          have hrec := ih (((c :: s').drop (placeholderL v).length) ++ (placeholderL m ++ t))
            (by
              simp only [List.length_append, List.length_drop, List.length_cons] at hl ⊢
              omega)
            ⟨(c :: s').drop (placeholderL v).length, t, by simp⟩
          obtain ⟨u, w, huw⟩ := hrec
          exact ⟨r ++ u, w, by rw [← huw]; simp⟩
        · exfalso
          have hsq : (c :: s') <+: placeholderL v := by
            refine List.prefix_of_prefix_length_le ?_ hq (le_of_lt hgt)
            have hsh : c :: (s' ++ placeholderL m ++ t)
                = (c :: s') ++ (placeholderL m ++ t) := by
              simp
            rw [hsh]
            exact List.prefix_append _ _
          obtain ⟨u, hu⟩ := hsq
          have hune : u ≠ [] := by
            intro h0
            rw [h0, List.append_nil] at hu
            have hlen := congrArg List.length hu
            omega
          have huprefix : u <+: placeholderL m ++ t := by
            have hq' : (c :: s') ++ u <+: (c :: s') ++ (placeholderL m ++ t) := by
              rw [hu]
              have hsh : c :: (s' ++ placeholderL m ++ t)
                  = (c :: s') ++ (placeholderL m ++ t) := by
                simp
              rw [← hsh]
              simpa using hq
            exact (List.prefix_append_right_inj _).mp hq'
          cases u with
          | nil => exact hune rfl
          | cons u0 u' =>
            have hu0 : u0 = '$' := by
              have hsh : placeholderL m ++ t = '$' :: ('{' :: m.data ++ ['}'] ++ t) := by
                simp [placeholderL]
              rw [hsh] at huprefix
              exact (List.cons_prefix_cons.mp huprefix).1
            have hcons : c :: (s' ++ (u0 :: u')) = '$' :: ('{' :: v.data ++ ['}']) := by
              have h1 : (c :: s') ++ (u0 :: u') = placeholderL v := hu
              simpa [placeholderL] using h1
            injection hcons with hc htail
            have hmem : '$' ∈ ('{' :: v.data ++ ['}']) := by
              rw [← htail, hu0]
              exact List.mem_append.mpr (Or.inr (List.mem_cons_self _ _))
            exact dollar_not_mem_tail v hv hmem
      · have hp : (placeholderL v).isPrefixOf (c :: (s' ++ placeholderL m ++ t)) = false := by
          rw [← Bool.not_eq_true, List.isPrefixOf_iff_prefix]
          exact hq
        rw [replaceAll_cons, hp]
        simp only [Bool.false_and, Bool.false_eq_true, if_false]
        have hrec := ih (s' ++ placeholderL m ++ t)
          (by
            simp only [List.length_append, List.length_cons] at hl ⊢
            omega)
          ⟨s', t, rfl⟩
        exact List.infix_cons_iff.mpr (Or.inr hrec)

theorem replaceAll_preserves (m v : String) (hm : identName m) (hv : identName v)
    (hne : m ≠ v) (r : List Char) (l : List Char)
    (h : placeholderL m <:+: l) :
    placeholderL m <:+: replaceAll (placeholderL v) r l :=
  replaceAll_preserves_aux m v hm hv hne r l.length l (le_refl _) h

theorem replaceStr_preserves (missing : String) (hm : identName missing) :
    ∀ (store : VarStore), (∀ kv ∈ store, identName kv.1) →
      (∀ kv ∈ store, kv.1 ≠ missing) →
      ∀ s : String, placeholderL missing <:+: s.data →
        placeholderL missing <:+: (replaceStr store s).data := by
  intro store
  induction store with
  | nil =>
    intro _ _ s h
    exact h
  | cons kv rest ih =>
    intro hstore hunset s h
    have hkv1 : identName kv.1 := hstore kv (List.mem_cons_self _ _)
    have hkvne : missing ≠ kv.1 := Ne.symm (hunset kv (List.mem_cons_self _ _))
    have hstep : placeholderL missing <:+:
        (if isSubstring (placeholderL kv.1) s.data then
            String.mk (replaceAll (placeholderL kv.1) (pyStr kv.2).data s.data)
          else s).data := by
      by_cases hg : isSubstring (placeholderL kv.1) s.data
      · rw [if_pos hg]
        exact replaceAll_preserves missing kv.1 hm hkv1 hkvne (pyStr kv.2).data s.data h
      · rw [if_neg hg]
        exact h
    have hrest := ih (fun p hp => hstore p (List.mem_cons_of_mem _ hp))
      (fun p hp => hunset p (List.mem_cons_of_mem _ hp)) _ hstep
    simpa [replaceStr, List.foldl_cons] using hrest

theorem no_foreign_placeholder_example (n : String) (hn : identName n)
    (hne : n ≠ "missing") :
    isSubstring (placeholderL n) "id=${missing}".data = false := by
  by_contra hg
  rw [Bool.not_eq_false, isSubstring_iff_infix] at hg
  have hd : "id=${missing}".data = ['i','d','=','$','{','m','i','s','s','i','n','g','}'] := rfl
  rw [hd] at hg
  simp only [placeholderL, List.infix_cons_iff, List.infix_nil, List.cons_prefix_cons] at hg
  simp at hg
  have hpre : n.data ++ ['}'] <+: "missing".data ++ ['}'] := by
    have : "missing".data ++ ['}'] = ['m','i','s','s','i','n','g','}'] := rfl
    rw [this]
    exact hg
  have := append_brace_prefix n.data "missing".data (brace_not_mem_ident n hn)
    (brace_not_mem_ident "missing" ⟨by decide, by decide⟩) hpre
  exact hne (String.ext this)

theorem replaceStr_example_fixed :
    ∀ (store : VarStore), (∀ kv ∈ store, identName kv.1) →
      (∀ kv ∈ store, kv.1 ≠ "missing") →
      replaceStr store "id=${missing}" = "id=${missing}" := by
  intro store
  induction store with
  | nil =>
    intro _ _
    rfl
  | cons kv rest ih =>
    intro hstore hunset
    have hg := no_foreign_placeholder_example kv.1 (hstore kv (List.mem_cons_self _ _))
      (hunset kv (List.mem_cons_self _ _))
    show List.foldl _ _ (kv :: rest) = _
    rw [List.foldl_cons]
    simp only [hg, Bool.false_eq_true, if_false]
    exact ih (fun p hp => hstore p (List.mem_cons_of_mem _ hp))
      (fun p hp => hunset p (List.mem_cons_of_mem _ hp))

/-- C4: for every string containing the placeholder `${missing}` of a
variable not set in the store (all stored names being validated
identifiers distinct from it), `replace_variables` returns a string that
still contains that placeholder verbatim — replacement of other variables
can never overlap it — and it cannot raise (the model is total; the
Python `try/except` around `str.replace` has nothing to catch).  In
particular `substitute("id=${missing}")` returns `"id=${missing}"`
unchanged for any such store. -/
theorem substitute_leaves_unset_placeholder
    (store : VarStore) (missing : String) (s : String)
    (hm : identName missing)
    (hstore : ∀ kv ∈ store, identName kv.1)
    (hunset : ∀ kv ∈ store, kv.1 ≠ missing)
    (hocc : placeholderL missing <:+: s.data) :
    (∃ out : String, replace_variables store (.str s) = .str out
        ∧ placeholderL missing <:+: out.data)
    ∧ (∀ store' : VarStore, (∀ kv ∈ store', identName kv.1) →
        (∀ kv ∈ store', kv.1 ≠ "missing") →
        replace_variables store' (.str "id=${missing}") = .str "id=${missing}") := by
  constructor
  · exact ⟨replaceStr store s, rfl,
      replaceStr_preserves missing hm store hstore hunset s hocc⟩
  · intro store' hstore' hunset'
    show Value.str (replaceStr store' "id=${missing}") = Value.str "id=${missing}"
    rw [replaceStr_example_fixed store' hstore' hunset']

theorem substitute_leaves_unset_placeholder_witness :
    (∃ out : String,
        replace_variables [("token", Value.str "abc")] (.str "id=${missing}") = .str out
          ∧ placeholderL "missing" <:+: out.data)
    ∧ replace_variables [("token", Value.str "abc")] (.str "id=${missing}")
        = .str "id=${missing}" := by
  have hst : ∀ kv ∈ [("token", Value.str "abc")], identName kv.1 := by
    intro kv hkv
    rcases List.mem_singleton.mp hkv with rfl
    exact ⟨by decide, by decide⟩
  have h := substitute_leaves_unset_placeholder [("token", Value.str "abc")] "missing"
    "id=${missing}" ⟨by decide, by decide⟩ hst (by decide)
    ⟨['i', 'd', '='], [], by decide⟩
  exact ⟨h.1, h.2 [("token", Value.str "abc")] hst (by decide)⟩

theorem no_placeholder_of_no_dollar (s : String) (h : ('$' : Char) ∉ s.data) :
    ∀ n : String, ¬ placeholderL n <:+: s.data := fun _ hinf =>
  h (hinf.subset (by simp [placeholderL]))

theorem replaceStr_id (store : VarStore) (s : String)
    (hs : ∀ n : String, ¬ placeholderL n <:+: s.data) :
    replaceStr store s = s := by
  induction store with
  | nil => rfl
  | cons kv rest ih =>
    have hg : isSubstring (placeholderL kv.1) s.data = false := by
      rw [← Bool.not_eq_true, isSubstring_iff_infix]
      exact hs kv.1
    show List.foldl _ _ (kv :: rest) = _
    rw [List.foldl_cons]
    simp only [hg, Bool.false_eq_true, if_false]
    exact ih

mutual

theorem replace_variables_id (store : VarStore) :
    ∀ v : Value, PlaceholderFree v → replace_variables store v = v
  | .null, _ => rfl
  | .bool _, _ => rfl
  | .int _, _ => rfl
  | .str s, h => by
    have hs : ∀ n : String, ¬ placeholderL n <:+: s.data := by
      cases h with
      | str _ h' => exact h'
    show Value.str (replaceStr store s) = Value.str s
    rw [replaceStr_id store s hs]
  | .arr xs, h => by
    have hx : ∀ x ∈ xs, PlaceholderFree x := by
      cases h with
      | arr _ h' => exact h'
    show Value.arr (replace_variables_list store xs) = Value.arr xs
    rw [replace_variables_list_id store xs hx]
  | .obj fs, h => by
    have hf : ∀ kv ∈ fs, PlaceholderFree kv.2 := by
      cases h with
      | obj _ h' => exact h'
    show Value.obj (replace_variables_fields store fs) = Value.obj fs
    rw [replace_variables_fields_id store fs hf]

theorem replace_variables_list_id (store : VarStore) :
    ∀ xs : List Value, (∀ x ∈ xs, PlaceholderFree x) →
      replace_variables_list store xs = xs
  | [], _ => rfl
  | x :: xs, h => by
    show replace_variables store x :: replace_variables_list store xs = x :: xs
    rw [replace_variables_id store x (h x (List.mem_cons_self _ _)),
      replace_variables_list_id store xs (fun y hy => h y (List.mem_cons_of_mem _ hy))]

theorem replace_variables_fields_id (store : VarStore) :
    ∀ fs : List (String × Value), (∀ kv ∈ fs, PlaceholderFree kv.2) →
      replace_variables_fields store fs = fs
  | [], _ => rfl
  | (k, v) :: fs, h => by
    show (k, replace_variables store v) :: replace_variables_fields store fs = (k, v) :: fs
    rw [replace_variables_id store v (h (k, v) (List.mem_cons_self _ _)),
      replace_variables_fields_id store fs (fun kv hkv => h kv (List.mem_cons_of_mem _ hkv))]

end

/-- C5: substitution is the identity on any nested value containing no
`${...}` placeholder, and it rebuilds mappings and sequences (a new
structure whose members are the substituted members) rather than aliasing
— in-place mutation does not exist in the pure model, matching the
Python's dict/list comprehensions, which construct fresh containers. -/
theorem substitute_identity_on_placeholder_free
    (store : VarStore) (v : Value) (h : PlaceholderFree v) :
    replace_variables store v = v
    ∧ (∀ (store' : VarStore) (fs : List (String × Value)),
        replace_variables store' (.obj fs) = .obj (replace_variables_fields store' fs))
    ∧ (∀ (store' : VarStore) (xs : List Value),
        replace_variables store' (.arr xs) = .arr (replace_variables_list store' xs)) :=
  ⟨replace_variables_id store v h, fun _ _ => rfl, fun _ _ => rfl⟩

theorem substitute_identity_on_placeholder_free_witness :
    replace_variables [("a", Value.str "y")]
        (.obj [("k", .int 1), ("s", .str "plain")])
      = .obj [("k", .int 1), ("s", .str "plain")] := by
  refine (substitute_identity_on_placeholder_free [("a", Value.str "y")] _ ?_).1
  refine PlaceholderFree.obj _ ?_
  intro kv hkv
  rcases List.mem_cons.mp hkv with rfl | hkv'
  · exact PlaceholderFree.int 1
  · rcases List.mem_singleton.mp hkv' with rfl
    exact PlaceholderFree.str _ (no_placeholder_of_no_dollar _ (by decide))
